import Mathlib

/-!
# Verification of the typed-record transformation layer of `mcp-paradex-py`

This file gives a shallow embedding, in Lean 4, of the two pieces of core
logic of the repository:

* `src/mcp_paradex/utils/formatter.py` — `compress_model_list` /
  `decompress_to_models`: factoring the field values shared by every record
  of a homogeneous collection into a `common` map, and the inverse
  reconstruction;
* `src/mcp_paradex/utils/jmespath_utils.py` — `apply_jmespath_filter`:
  validating a JMESPath expression, evaluating it over the schema-erased
  dumps of the records, and re-validating the result.

Python dictionaries (as produced by pydantic's `model_dump`) are embedded as
association lists `List (String × V)` with insertion order preserved; a
pydantic model instance is identified with its dump (a map whose keys are
exactly the model's field names, in declaration order, without duplicates).
The external libraries (jmespath, the pydantic validators) are kept abstract:
the jmespath compiler/evaluator and the `TypeAdapter` are parameters of the
embedding of `apply_jmespath_filter`, and pydantic's `model_validate` is
modelled as requiring every schema field to be present with a value accepted
by the field's validity predicate (extra keys are ignored, as pydantic does
by default).
-/

namespace Spec2Proof

/-! ## Python dictionaries as ordered association lists -/

/-- A Python `dict` with `String` keys: an ordered association list.
Dicts produced by pydantic `model_dump` have pairwise-distinct keys. -/
abbrev Dict (V : Type) : Type := List (String × V)

/-- `d[k]` lookup returning `none` when the key is absent (`k in d` is
`(dictGet? d k).isSome`).  Takes the first entry with the given key; on
dicts with distinct keys this is the unique entry. -/
def dictGet? {V : Type} (d : Dict V) (k : String) : Option V :=
  match d with
  | [] => none
  | (k', v) :: d' => if k' = k then some v else dictGet? d' k

/-- The keys of a dict, in order. -/
def dictKeys {V : Type} (d : Dict V) : List String :=
  d.map Prod.fst

/-- Setting `d[k] = v` in Python: if `k` is present its (first) entry is
updated in place, otherwise `(k, v)` is appended at the end. -/
def dictInsert {V : Type} (d : Dict V) (k : String) (v : V) : Dict V :=
  match d with
  | [] => [(k, v)]
  | (k', v') :: d' => if k' = k then (k', v) :: d' else (k', v') :: dictInsert d' k v

/-- The Python merge `\x7b**a, **b\x7d`: start from `a` and insert every
entry of `b` in order (entries of `b` win on key collisions). -/
def dictMerge {V : Type} (a b : Dict V) : Dict V :=
  b.foldl (fun d p => dictInsert d p.1 p.2) a

@[simp] theorem dictGet?_nil {V : Type} (k : String) :
    dictGet? ([] : Dict V) k = none := rfl

@[simp] theorem dictGet?_cons {V : Type} (k' : String) (v : V) (d' : Dict V) (k : String) :
    dictGet? ((k', v) :: d') k = if k' = k then some v else dictGet? d' k := rfl

@[simp] theorem dictKeys_nil {V : Type} : dictKeys ([] : Dict V) = [] := rfl

@[simp] theorem dictKeys_cons {V : Type} (k : String) (v : V) (d : Dict V) :
    dictKeys ((k, v) :: d) = k :: dictKeys d := rfl

@[simp] theorem dictInsert_nil {V : Type} (k : String) (v : V) :
    dictInsert ([] : Dict V) k v = [(k, v)] := rfl

@[simp] theorem dictInsert_cons {V : Type} (k' : String) (v' : V) (d' : Dict V)
    (k : String) (v : V) :
    dictInsert ((k', v') :: d') k v =
      if k' = k then (k', v) :: d' else (k', v') :: dictInsert d' k v := rfl

@[simp] theorem dictMerge_nil {V : Type} (a : Dict V) : dictMerge a [] = a := rfl

@[simp] theorem dictMerge_cons {V : Type} (a : Dict V) (k : String) (v : V) (b : Dict V) :
    dictMerge a ((k, v) :: b) = dictMerge (dictInsert a k v) b := rfl

/-! ### Lookup lemmas -/

theorem dictGet?_eq_none {V : Type} (d : Dict V) (k : String) :
    dictGet? d k = none ↔ k ∉ dictKeys d := by
  induction d with
  | nil => simp
  | cons p d' ih =>
    obtain ⟨k', v⟩ := p
    by_cases h : k' = k
    · subst h
      simp
    · have h' : ¬k = k' := fun he => h he.symm
      simp [h, h', ih]

theorem mem_of_dictGet?_eq_some {V : Type} {d : Dict V} {k : String} {v : V}
    (h : dictGet? d k = some v) : (k, v) ∈ d := by
  induction d with
  | nil => simp at h
  | cons p d' ih =>
    obtain ⟨k', v'⟩ := p
    by_cases hk : k' = k
    · subst hk
      rw [dictGet?_cons, if_pos rfl, Option.some.injEq] at h
      subst h
      exact List.mem_cons_self _ _
    · rw [dictGet?_cons, if_neg hk] at h
      exact List.mem_cons_of_mem _ (ih h)

theorem dictKeys_mem_of_mem {V : Type} {d : Dict V} {p : String × V}
    (h : p ∈ d) : p.1 ∈ dictKeys d :=
  List.mem_map_of_mem Prod.fst h

theorem mem_dictKeys_iff {V : Type} (d : Dict V) (k : String) :
    k ∈ dictKeys d ↔ ∃ v, (k, v) ∈ d := by
  constructor
  · intro h
    rw [dictKeys, List.mem_map] at h
    obtain ⟨⟨k', v⟩, hp, he⟩ := h
    exact ⟨v, by simpa [← he] using hp⟩
  · rintro ⟨v, hv⟩
    exact dictKeys_mem_of_mem hv

/-- On a dict with distinct keys, membership of an entry and lookup agree. -/
theorem dictGet?_eq_some_of_mem {V : Type} {d : Dict V} {k : String} {v : V}
    (hnd : (dictKeys d).Nodup) (h : (k, v) ∈ d) : dictGet? d k = some v := by
  induction d with
  | nil => simp at h
  | cons p d' ih =>
    obtain ⟨k', v'⟩ := p
    rw [dictKeys_cons, List.nodup_cons] at hnd
    rcases List.mem_cons.mp h with h | h
    · rw [Prod.mk.injEq] at h
      obtain ⟨hk, hv⟩ := h
      subst hk
      subst hv
      simp
    · have hne : k' ≠ k := by
        intro he
        subst he
        exact hnd.1 (dictKeys_mem_of_mem h)
      rw [dictGet?_cons, if_neg hne]
      exact ih hnd.2 h

theorem dictGet?_filter_not_mem_keyset {V : Type} (d : Dict V) (ks : List String)
    (k : String) (hk : k ∉ ks) :
    dictGet? (d.filter (fun p => !decide (p.1 ∈ ks))) k = dictGet? d k := by
  induction d with
  | nil => simp
  | cons p d' ih =>
    obtain ⟨k', v⟩ := p
    rw [List.filter_cons]
    by_cases hmem : k' ∈ ks
    · have hne : k' ≠ k := fun he => hk (he ▸ hmem)
      rw [if_neg (by simp [hmem]), dictGet?_cons, if_neg hne]
      exact ih
    · rw [if_pos (by simp [hmem]), dictGet?_cons, dictGet?_cons]
      by_cases he : k' = k
      · simp [he]
      · simp [he, ih]

theorem dictGet?_filter_mem_keyset {V : Type} (d : Dict V) (ks : List String)
    (k : String) (hk : k ∈ ks) :
    dictGet? (d.filter (fun p => !decide (p.1 ∈ ks))) k = none := by
  induction d with
  | nil => simp
  | cons p d' ih =>
    obtain ⟨k', v⟩ := p
    rw [List.filter_cons]
    by_cases hmem : k' ∈ ks
    · rw [if_neg (by simp [hmem])]
      exact ih
    · have hne : k' ≠ k := fun he => hmem (he ▸ hk)
      rw [if_pos (by simp [hmem]), dictGet?_cons, if_neg hne]
      exact ih

theorem dictGet?_insert_self {V : Type} (d : Dict V) (k : String) (v : V) :
    dictGet? (dictInsert d k v) k = some v := by
  induction d with
  | nil => simp
  | cons p d' ih =>
    obtain ⟨k', v'⟩ := p
    by_cases h : k' = k <;> simp [h, ih]

theorem dictGet?_insert_ne {V : Type} (d : Dict V) (k f : String) (v : V)
    (hne : f ≠ k) : dictGet? (dictInsert d k v) f = dictGet? d f := by
  have hkf : k ≠ f := fun he => hne he.symm
  induction d with
  | nil => simp [hkf]
  | cons p d' ih =>
    obtain ⟨k', v'⟩ := p
    by_cases h : k' = k
    · subst h
      simp [hkf]
    · by_cases hf : k' = f <;> simp [h, hf, hne, ih]

/-- Lookup through a Python merge `\x7b**a, **b\x7d` when `b` has distinct
keys: entries of `b` shadow those of `a`. -/
theorem dictGet?_merge {V : Type} (a b : Dict V) (f : String)
    (hnd : (dictKeys b).Nodup) :
    dictGet? (dictMerge a b) f =
      match dictGet? b f with
      | some v => some v
      | none => dictGet? a f := by
  induction b generalizing a with
  | nil => simp
  | cons p b' ih =>
    obtain ⟨k, v⟩ := p
    rw [dictKeys_cons, List.nodup_cons] at hnd
    rw [dictMerge_cons, ih _ hnd.2]
    by_cases hf : k = f
    · subst hf
      have hb' : dictGet? b' k = none := by
        rw [dictGet?_eq_none]
        exact hnd.1
      simp [hb', dictGet?_insert_self]
    · have hne : f ≠ k := fun h => hf h.symm
      simp [hf, dictGet?_insert_ne a k f v hne]

/-- A key is absent from a merge exactly when it is absent from both sides. -/
theorem dictGet?_merge_eq_none {V : Type} (a b : Dict V) (f : String) :
    dictGet? (dictMerge a b) f = none ↔
      dictGet? a f = none ∧ dictGet? b f = none := by
  induction b generalizing a with
  | nil => simp
  | cons p b' ih =>
    obtain ⟨k, v⟩ := p
    rw [dictMerge_cons, ih]
    by_cases hf : k = f
    · subst hf
      simp [dictGet?_insert_self]
    · have hne : f ≠ k := fun h => hf h.symm
      simp [hf, dictGet?_insert_ne a k f v hne]

/-! ## Schemas and pydantic validation

A `Schema` stands for a pydantic model class: an ordered list of field names
(pairwise distinct in any actual model class) together with, for each field,
a predicate telling which values the field's declared type accepts.  A model
instance is identified with its `model_dump`: a `Dict` whose keys are exactly
the schema's fields, in order. -/

structure Schema (V : Type) where
  fields : List String
  valid : String → V → Bool

/-- The dump of a record conforming to a pydantic model class `s`: its keys
are exactly `s.fields` in declaration order and every value is accepted by
its field's type. -/
def conforms {V : Type} (s : Schema V) (r : Dict V) : Prop :=
  dictKeys r = s.fields ∧ ∀ p ∈ r, s.valid p.1 p.2 = true

instance {V : Type} [DecidableEq V] (s : Schema V) (r : Dict V) :
    Decidable (conforms s r) := by
  unfold conforms
  infer_instance

/-- `model_class.model_validate(d)` on the fields `fs`: every field must be
present in `d` with a value its type accepts, else a `ValidationError` is
raised (`none`).  On success the instance is rebuilt with its fields in
declaration order; extra keys of `d` are ignored (pydantic's default). -/
def validateFields {V : Type} (valid : String → V → Bool) (d : Dict V) :
    List String → Option (Dict V)
  | [] => some []
  | f :: fs =>
    match dictGet? d f with
    | none => none
    | some v =>
      if valid f v then (validateFields valid d fs).map (fun r => (f, v) :: r)
      else none

/-- `model_class.model_validate(full_data)` from
`src/mcp_paradex/utils/formatter.py` line 146. -/
def model_validate {V : Type} (s : Schema V) (d : Dict V) : Option (Dict V) :=
  validateFields s.valid d s.fields

/-! ## `compress_model_list` (formatter.py lines 62-118) -/

/-- One pass of the loop body of `compress_model_list` (lines 88-97): the
fields kept in `potential_common` are exactly those present in the current
item's dump with the same value (the loop collects the others in
`fields_to_remove_from_common` and deletes them; deletion preserves the
order of the remaining entries). -/
def commonStep {V : Type} [DecidableEq V] (pc item_data : Dict V) : Dict V :=
  pc.filter (fun p => decide (dictGet? item_data p.1 = some p.2))

/-- The loop of `compress_model_list` over `model_list[1:]` (lines 86-101),
including the early exit once `potential_common` is empty. -/
def computeCommon {V : Type} [DecidableEq V] (pc : Dict V) : List (Dict V) → Dict V
  | [] => pc
  | item :: rest =>
    let pc' := commonStep pc item
    if pc'.isEmpty then pc' else computeCommon pc' rest

/-- The `\x7b"common": ..., "items": ...\x7d` result of compression. -/
structure Compressed (V : Type) where
  common : Dict V
  items : List (Dict V)
deriving DecidableEq

/-- `compress_model_list` (formatter.py lines 62-118).  Records are
identified with their dumps, so `model_dump()` is the identity here.
Returns `none` for the empty list (Python `None`). -/
def compress_model_list {V : Type} [DecidableEq V] (model_list : List (Dict V)) :
    Option (Compressed V) :=
  match model_list with
  | [] => none
  | [m] => some { common := [], items := [m] }
  | m0 :: m1 :: rest =>
    let potential_common := computeCommon m0 (m1 :: rest)
    let common_field_names := dictKeys potential_common
    let varying_items := (m0 :: m1 :: rest).map
      (fun item_data => item_data.filter (fun p => !decide (p.1 ∈ common_field_names)))
    some { common := potential_common, items := varying_items }

/-! ## `decompress_to_models` (formatter.py lines 124-149) -/

/-- The reconstruction loop (lines 142-147): merge `common` with each item
and validate; a `ValidationError` (`none`) aborts the whole call. -/
def decompressItems {V : Type} (s : Schema V) (common : Dict V) :
    List (Dict V) → Option (List (Dict V))
  | [] => some []
  | item :: rest =>
    match model_validate s (dictMerge common item) with
    | none => none
    | some m => (decompressItems s common rest).map (fun ms => m :: ms)

/-- `decompress_to_models` (formatter.py lines 124-149).  A falsy
`compressed_data` (Python `None`, the output of compression on the empty
list) yields the empty list. -/
def decompress_to_models {V : Type} (s : Schema V)
    (compressed_data : Option (Compressed V)) : Option (List (Dict V)) :=
  match compressed_data with
  | none => some []
  | some cd => decompressItems s cd.common cd.items

/-! ### Lemmas about `computeCommon` -/

@[simp] theorem computeCommon_nil {V : Type} [DecidableEq V] (pc : Dict V) :
    computeCommon pc [] = pc := rfl

theorem computeCommon_cons {V : Type} [DecidableEq V] (pc item : Dict V)
    (rest : List (Dict V)) :
    computeCommon pc (item :: rest) =
      if (commonStep pc item).isEmpty then commonStep pc item
      else computeCommon (commonStep pc item) rest := rfl

theorem commonStep_sublist {V : Type} [DecidableEq V] (pc item : Dict V) :
    (commonStep pc item).Sublist pc :=
  List.filter_sublist pc

theorem computeCommon_sublist {V : Type} [DecidableEq V] (pc : Dict V)
    (rest : List (Dict V)) : (computeCommon pc rest).Sublist pc := by
  induction rest generalizing pc with
  | nil => simp
  | cons item rest ih =>
    rw [computeCommon_cons]
    by_cases h : (commonStep pc item).isEmpty
    · simp [h, commonStep_sublist]
    · simp only [h, if_false]
      exact (ih (commonStep pc item)).trans (commonStep_sublist pc item)

/-- Any entry surviving the common-extraction loop came from the first dump
and is present, with the same value, in every later dump. -/
theorem mem_computeCommon {V : Type} [DecidableEq V] {pc : Dict V}
    {rest : List (Dict V)} {p : String × V} (h : p ∈ computeCommon pc rest) :
    p ∈ pc ∧ ∀ r ∈ rest, dictGet? r p.1 = some p.2 := by
  induction rest generalizing pc with
  | nil => simpa using h
  | cons item rest ih =>
    rw [computeCommon_cons] at h
    by_cases he : (commonStep pc item).isEmpty
    · rw [if_pos he, List.isEmpty_iff.mp he] at h
      simp at h
    · rw [if_neg he] at h
      obtain ⟨hmem, hrest⟩ := ih h
      rw [commonStep, List.mem_filter] at hmem
      refine ⟨hmem.1, ?_⟩
      intro r hr
      rcases List.mem_cons.mp hr with hr | hr
      · subst hr
        exact of_decide_eq_true hmem.2
      · exact hrest r hr

/-- A field present with one and the same value in the first dump and in
every later dump survives the common-extraction loop. -/
theorem mem_computeCommon_of_shared {V : Type} [DecidableEq V] {pc : Dict V}
    {rest : List (Dict V)} {f : String} {v : V} (hpc : (f, v) ∈ pc)
    (hall : ∀ r ∈ rest, dictGet? r f = some v) : (f, v) ∈ computeCommon pc rest := by
  induction rest generalizing pc with
  | nil => simpa using hpc
  | cons item rest ih =>
    rw [computeCommon_cons]
    have hmem : (f, v) ∈ commonStep pc item := by
      rw [commonStep, List.mem_filter]
      exact ⟨hpc, decide_eq_true (hall item (List.mem_cons_self _ _))⟩
    have hne : ¬(commonStep pc item).isEmpty := by
      rw [List.isEmpty_iff]
      intro he
      rw [he] at hmem
      simp at hmem
    rw [if_neg hne]
    exact ih hmem (fun r hr => hall r (List.mem_cons_of_mem _ hr))

/-! ### Equation lemmas for `compress_model_list` -/

@[simp] theorem compress_model_list_nil {V : Type} [DecidableEq V] :
    compress_model_list ([] : List (Dict V)) = none := rfl

@[simp] theorem compress_model_list_singleton {V : Type} [DecidableEq V] (m : Dict V) :
    compress_model_list [m] = some { common := [], items := [m] } := rfl

theorem compress_model_list_cons₂ {V : Type} [DecidableEq V] (m0 m1 : Dict V)
    (ms : List (Dict V)) :
    compress_model_list (m0 :: m1 :: ms) =
      some { common := computeCommon m0 (m1 :: ms),
             items := (m0 :: m1 :: ms).map (fun item_data =>
               item_data.filter (fun p =>
                 !decide (p.1 ∈ dictKeys (computeCommon m0 (m1 :: ms))))) } := rfl

/-! ### Lemmas about validation -/

/-- If `d` looks up exactly like the conforming record `r` on all of `r`'s
fields, validating `d` over those fields rebuilds `r` itself. -/
theorem validateFields_dictKeys_eq_some {V : Type} (valid : String → V → Bool)
    (d r : Dict V) (hnd : (dictKeys r).Nodup)
    (hagree : ∀ f ∈ dictKeys r, dictGet? d f = dictGet? r f)
    (hvalid : ∀ p ∈ r, valid p.1 p.2 = true) :
    validateFields valid d (dictKeys r) = some r := by
  induction r with
  | nil => rfl
  | cons p r' ih =>
    obtain ⟨f, v⟩ := p
    rw [dictKeys_cons, List.nodup_cons] at hnd
    have hdf : dictGet? d f = some v := by
      rw [hagree f (by simp)]
      simp
    rw [dictKeys_cons]
    simp only [validateFields, hdf, hvalid (f, v) (List.mem_cons_self _ _), if_true]
    rw [ih hnd.2 ?agree (fun q hq => hvalid q (List.mem_cons_of_mem _ hq))]
    · rfl
    case agree =>
      intro g hg
      have hgf : g ≠ f := fun he => hnd.1 (he ▸ hg)
      rw [hagree g (by simp [hg]), dictGet?_cons, if_neg (fun he => hgf he.symm)]

theorem model_validate_eq_some {V : Type} (s : Schema V) (d r : Dict V)
    (hnd : s.fields.Nodup) (hconf : conforms s r)
    (hagree : ∀ f, dictGet? d f = dictGet? r f) :
    model_validate s d = some r := by
  obtain ⟨hkeys, hvalid⟩ := hconf
  rw [model_validate, ← hkeys]
  exact validateFields_dictKeys_eq_some s.valid d r (by rw [hkeys]; exact hnd)
    (fun f _ => hagree f) hvalid

/-- Exact failure condition of `model_validate`: some field is either absent
from the input map or carries a value its declared type rejects. -/
theorem validateFields_eq_none_iff {V : Type} (valid : String → V → Bool)
    (d : Dict V) (fs : List String) :
    validateFields valid d fs = none ↔
      ∃ f ∈ fs, dictGet? d f = none ∨
        ∃ v, dictGet? d f = some v ∧ valid f v = false := by
  induction fs with
  | nil => simp [validateFields]
  | cons f fs ih =>
    simp only [validateFields]
    cases hd : dictGet? d f with
    | none =>
      constructor
      · intro _
        exact ⟨f, List.mem_cons_self _ _, Or.inl hd⟩
      · intro _
        rfl
    | some v =>
      dsimp only
      by_cases hv : valid f v = true
      · rw [if_pos hv, Option.map_eq_none', ih]
        constructor
        · rintro ⟨g, hg, hcase⟩
          exact ⟨g, List.mem_cons_of_mem _ hg, hcase⟩
        · rintro ⟨g, hg, hcase⟩
          rcases List.mem_cons.mp hg with he | hg'
          · subst he
            rcases hcase with hnone | ⟨w, hw, hvw⟩
            · rw [hd] at hnone
              cases hnone
            · rw [hd, Option.some.injEq] at hw
              subst hw
              rw [hv] at hvw
              cases hvw
          · exact ⟨g, hg', hcase⟩
      · rw [if_neg hv]
        constructor
        · intro _
          exact ⟨f, List.mem_cons_self _ _,
            Or.inr ⟨v, hd, Bool.eq_false_iff.mpr hv⟩⟩
        · intro _
          rfl

/-! ### Lemmas about `decompressItems` -/

theorem decompressItems_map_eq_some {V : Type} (s : Schema V) (common : Dict V)
    (g : Dict V → Dict V) (L : List (Dict V))
    (h : ∀ r ∈ L, model_validate s (dictMerge common (g r)) = some r) :
    decompressItems s common (L.map g) = some L := by
  induction L with
  | nil => rfl
  | cons r L ih =>
    rw [List.map_cons]
    simp only [decompressItems, h r (List.mem_cons_self _ _)]
    rw [ih (fun r' hr' => h r' (List.mem_cons_of_mem _ hr'))]
    rfl

theorem decompressItems_eq_none_iff {V : Type} (s : Schema V) (common : Dict V)
    (items : List (Dict V)) :
    decompressItems s common items = none ↔
      ∃ it ∈ items, model_validate s (dictMerge common it) = none := by
  induction items with
  | nil => simp [decompressItems]
  | cons it items ih =>
    simp only [decompressItems]
    cases hv : model_validate s (dictMerge common it) with
    | none =>
      constructor
      · intro _
        exact ⟨it, List.mem_cons_self _ _, hv⟩
      · intro _
        rfl
    | some m =>
      rw [Option.map_eq_none', ih]
      constructor
      · rintro ⟨jt, hjt, hj⟩
        exact ⟨jt, List.mem_cons_of_mem _ hjt, hj⟩
      · rintro ⟨jt, hjt, hj⟩
        rcases List.mem_cons.mp hjt with he | hjt'
        · subst he
          rw [hv] at hj
          cases hj
        · exact ⟨jt, hjt', hj⟩

/-! ### The round-trip argument -/

/-- Merging the extracted common map back with a record's varying fields
looks up exactly like the original record, for every key. -/
theorem compress_merge_get {V : Type} [DecidableEq V] {m0 : Dict V}
    {rest : List (Dict V)} (hnd : ∀ r ∈ m0 :: rest, (dictKeys r).Nodup)
    {r : Dict V} (hr : r ∈ m0 :: rest) (f : String) :
    dictGet? (dictMerge (computeCommon m0 rest)
      (r.filter (fun p => !decide (p.1 ∈ dictKeys (computeCommon m0 rest))))) f
      = dictGet? r f := by
  have hm0nd : (dictKeys m0).Nodup := hnd m0 (List.mem_cons_self _ _)
  have hrnd : (dictKeys r).Nodup := hnd r hr
  have hcommon_nd : (dictKeys (computeCommon m0 rest)).Nodup :=
    hm0nd.sublist ((computeCommon_sublist m0 rest).map Prod.fst)
  have hgrnd : (dictKeys (r.filter
      (fun p => !decide (p.1 ∈ dictKeys (computeCommon m0 rest))))).Nodup :=
    hrnd.sublist ((List.filter_sublist r).map Prod.fst)
  rw [dictGet?_merge _ _ _ hgrnd]
  by_cases hf : f ∈ dictKeys (computeCommon m0 rest)
  · rw [dictGet?_filter_mem_keyset r _ f hf]
    obtain ⟨v, hv⟩ := (mem_dictKeys_iff _ f).mp hf
    obtain ⟨hm0, hall⟩ := mem_computeCommon hv
    have hrv : dictGet? r f = some v := by
      rcases List.mem_cons.mp hr with he | hmem
      · subst he
        exact dictGet?_eq_some_of_mem hm0nd hm0
      · exact hall r hmem
    simp [dictGet?_eq_some_of_mem hcommon_nd hv, hrv]
  · rw [dictGet?_filter_not_mem_keyset r _ f hf]
    have hcf : dictGet? (computeCommon m0 rest) f = none :=
      (dictGet?_eq_none _ _).mpr hf
    cases hdr : dictGet? r f <;> simp [hcf]

/-- The compress/decompress round trip, shared by several claims below:
on any non-empty collection of records conforming to a schema with
pairwise-distinct field names, decompression of the compressed form
reproduces the collection exactly. -/
theorem roundTrip_aux {V : Type} [DecidableEq V] (s : Schema V)
    (C : List (Dict V)) (hnd : s.fields.Nodup)
    (hconf : ∀ r ∈ C, conforms s r) (hne : C ≠ []) :
    decompress_to_models s (compress_model_list C) = some C := by
  cases C with
  | nil => exact absurd rfl hne
  | cons r C' =>
    cases C' with
    | nil =>
      have hc := hconf r (List.mem_cons_self _ _)
      have hrnd : (dictKeys r).Nodup := by
        rw [hc.1]
        exact hnd
      have hagree : ∀ f, dictGet? (dictMerge [] r) f = dictGet? r f := by
        intro f
        rw [dictGet?_merge [] r f hrnd]
        cases h : dictGet? r f <;> simp
      show decompressItems s [] [r] = some [r]
      simp only [decompressItems, model_validate_eq_some s _ r hnd hc hagree]
      rfl
    | cons m1 ms =>
      show decompressItems s (computeCommon r (m1 :: ms))
        ((r :: m1 :: ms).map (fun item_data => item_data.filter
          (fun p => !decide (p.1 ∈ dictKeys (computeCommon r (m1 :: ms))))))
        = some (r :: m1 :: ms)
      apply decompressItems_map_eq_some
      intro r' hr'
      apply model_validate_eq_some s _ r' hnd (hconf r' hr')
      intro f
      exact compress_merge_get
        (fun r'' hr'' => by rw [(hconf r'' hr'').1]; exact hnd) hr' f

/-! ## Concrete instances used by the witnesses

The concrete scenario of the spec (§8): three records sharing
`market = "BTC-USD"` and `status = "OPEN"` but with differing `size`. -/

def schemaW : Schema String :=
  { fields := ["market", "status", "size"], valid := fun _ _ => true }

def recW1 : Dict String := [("market", "BTC-USD"), ("status", "OPEN"), ("size", "1.0")]

def recW2 : Dict String := [("market", "BTC-USD"), ("status", "OPEN"), ("size", "2.0")]

def recW3 : Dict String := [("market", "BTC-USD"), ("status", "OPEN"), ("size", "3.0")]

def cdW : Compressed String :=
  { common := [("market", "BTC-USD"), ("status", "OPEN")],
    items := [[("size", "1.0")], [("size", "2.0")], [("size", "3.0")]] }

/-! ## Claims about the compression engine -/

/-- **C1**: for every non-empty list `C` of records conforming to one
schema, decompressing the compressed form of `C` with that schema
reproduces `C` exactly, element-wise and in the same order:
`decompress_to_models (compress_model_list C) = C`. -/
theorem c1_round_trip {V : Type} [DecidableEq V] (s : Schema V)
    (C : List (Dict V)) (hnd : s.fields.Nodup)
    (hconf : ∀ r ∈ C, conforms s r) (hne : C ≠ []) :
    decompress_to_models s (compress_model_list C) = some C :=
  roundTrip_aux s C hnd hconf hne

theorem c1_round_trip_witness :
    decompress_to_models schemaW (compress_model_list [recW1, recW2, recW3]) =
      some [recW1, recW2, recW3] :=
  c1_round_trip schemaW [recW1, recW2, recW3] (by decide) (by decide) (by decide)

/-- **C2**: for every record list with at least 2 elements, after
`compress_model_list` a field `f` is in `common` if and only if `f` is
present with a structurally equal value in the dump of every record; if any
two records disagree on `f`, or any record lacks `f`, then `f` is not in
`common`. -/
theorem c2_common_maximality {V : Type} [DecidableEq V] (m0 m1 : Dict V)
    (ms : List (Dict V)) (hnd : ∀ r ∈ m0 :: m1 :: ms, (dictKeys r).Nodup)
    (cd : Compressed V) (hcd : compress_model_list (m0 :: m1 :: ms) = some cd)
    (f : String) :
    f ∈ dictKeys cd.common ↔ ∃ v, ∀ r ∈ m0 :: m1 :: ms, dictGet? r f = some v := by
  rw [compress_model_list_cons₂, Option.some.injEq] at hcd
  subst hcd
  dsimp only
  constructor
  · intro hf
    obtain ⟨v, hv⟩ := (mem_dictKeys_iff _ f).mp hf
    obtain ⟨hm0, hall⟩ := mem_computeCommon hv
    refine ⟨v, ?_⟩
    intro r hr
    rcases List.mem_cons.mp hr with he | hmem
    · subst he
      exact dictGet?_eq_some_of_mem (hnd r (List.mem_cons_self _ _)) hm0
    · exact hall r hmem
  · rintro ⟨v, hv⟩
    have hm0 : (f, v) ∈ m0 := mem_of_dictGet?_eq_some (hv m0 (List.mem_cons_self _ _))
    exact dictKeys_mem_of_mem
      (mem_computeCommon_of_shared hm0 (fun r hr => hv r (List.mem_cons_of_mem _ hr)))

theorem c2_common_maximality_witness :
    "market" ∈ dictKeys cdW.common ↔
      ∃ v, ∀ r ∈ [recW1, recW2, recW3], dictGet? r "market" = some v :=
  c2_common_maximality recW1 recW2 [recW3] (by decide) cdW (by decide) "market"

/-- **C3**: for every non-empty collection of records conforming to one
schema and every compressed item, the item's field-name set is disjoint
from `common`'s field-name set and their union is the schema's full field
set (every schema field lands in exactly one of the two). -/
theorem c3_no_overlap {V : Type} [DecidableEq V] (s : Schema V)
    (C : List (Dict V)) (hconf : ∀ r ∈ C, conforms s r) (hne : C ≠ [])
    (cd : Compressed V) (hcd : compress_model_list C = some cd) :
    ∀ it ∈ cd.items,
      (∀ f, ¬(f ∈ dictKeys it ∧ f ∈ dictKeys cd.common)) ∧
      (∀ f, f ∈ s.fields ↔ (f ∈ dictKeys cd.common ∨ f ∈ dictKeys it)) := by
  cases C with
  | nil => exact absurd rfl hne
  | cons m0 C' =>
    cases C' with
    | nil =>
      rw [compress_model_list_singleton, Option.some.injEq] at hcd
      subst hcd
      intro it hit
      rw [List.mem_singleton] at hit
      subst hit
      constructor
      · intro f hf
        simpa using hf.2
      · intro f
        rw [← (hconf it (List.mem_cons_self _ _)).1]
        simp
    | cons m1 ms =>
      rw [compress_model_list_cons₂, Option.some.injEq] at hcd
      subst hcd
      intro it hit
      dsimp only at hit ⊢
      obtain ⟨r, hr, hrit⟩ := List.mem_map.mp hit
      subst hrit
      have hrfields : dictKeys r = s.fields := (hconf r hr).1
      constructor
      · rintro f ⟨hfit, hfc⟩
        obtain ⟨v, hv⟩ := (mem_dictKeys_iff _ f).mp hfit
        rw [List.mem_filter] at hv
        revert hfc
        simpa using hv.2
      · intro f
        constructor
        · intro hf
          by_cases hfc : f ∈ dictKeys (computeCommon m0 (m1 :: ms))
          · exact Or.inl hfc
          · refine Or.inr ?_
            obtain ⟨v, hv⟩ := (mem_dictKeys_iff r f).mp (hrfields ▸ hf)
            refine dictKeys_mem_of_mem (List.mem_filter.mpr ⟨hv, ?_⟩)
            simpa using hfc
        · intro hf
          rcases hf with hfc | hfit
          · obtain ⟨v, hv⟩ := (mem_dictKeys_iff _ f).mp hfc
            obtain ⟨hm0, _⟩ := mem_computeCommon hv
            rw [← (hconf m0 (List.mem_cons_self _ _)).1]
            exact dictKeys_mem_of_mem hm0
          · obtain ⟨v, hv⟩ := (mem_dictKeys_iff _ f).mp hfit
            rw [List.mem_filter] at hv
            rw [← hrfields]
            exact dictKeys_mem_of_mem hv.1

theorem c3_no_overlap_witness :
    (∀ f, ¬(f ∈ dictKeys [("size", "1.0")] ∧ f ∈ dictKeys cdW.common)) ∧
    (∀ f, f ∈ schemaW.fields ↔
      (f ∈ dictKeys cdW.common ∨ f ∈ dictKeys [("size", "1.0")])) :=
  c3_no_overlap schemaW [recW1, recW2, recW3] (by decide) (by decide) cdW (by decide)
    [("size", "1.0")] (by decide)

/-- **C7**: `decompress_to_models` validates each map merged from `common`
and an item against the full schema (every declared field must be present
and well-typed — the "strict", complete-instance mode, as opposed to the
partial/lenient mode of the filter path): it fails exactly when some field
is missing from both `common` and an item or some merged value violates the
field's declared type, and on any untampered output of
`compress_model_list` it never fails. -/
theorem c7_strict_validation {V : Type} [DecidableEq V] (s : Schema V)
    (hnd : s.fields.Nodup) (cd : Compressed V) :
    (decompress_to_models s (some cd) = none ↔
      ∃ it ∈ cd.items, ∃ f ∈ s.fields,
        (dictGet? cd.common f = none ∧ dictGet? it f = none) ∨
        ∃ v, dictGet? (dictMerge cd.common it) f = some v ∧ s.valid f v = false) ∧
    (∀ C : List (Dict V), C ≠ [] → (∀ r ∈ C, conforms s r) →
      decompress_to_models s (compress_model_list C) ≠ none) := by
  constructor
  · show decompressItems s cd.common cd.items = none ↔ _
    rw [decompressItems_eq_none_iff]
    constructor
    · rintro ⟨it, hit, hv⟩
      rw [model_validate, validateFields_eq_none_iff] at hv
      obtain ⟨f, hf, hcase⟩ := hv
      refine ⟨it, hit, f, hf, ?_⟩
      rcases hcase with hnone | hsome
      · exact Or.inl ((dictGet?_merge_eq_none _ _ _).mp hnone)
      · exact Or.inr hsome
    · rintro ⟨it, hit, f, hf, hcase⟩
      refine ⟨it, hit, ?_⟩
      rw [model_validate, validateFields_eq_none_iff]
      refine ⟨f, hf, ?_⟩
      rcases hcase with ⟨h1, h2⟩ | hsome
      · exact Or.inl ((dictGet?_merge_eq_none _ _ _).mpr ⟨h1, h2⟩)
      · exact Or.inr hsome
  · intro C hne hconf
    rw [roundTrip_aux s C hnd hconf hne]
    simp

theorem c7_strict_validation_witness :
    (decompress_to_models schemaW (some cdW) = none ↔
      ∃ it ∈ cdW.items, ∃ f ∈ schemaW.fields,
        (dictGet? cdW.common f = none ∧ dictGet? it f = none) ∨
        ∃ v, dictGet? (dictMerge cdW.common it) f = some v ∧
          schemaW.valid f v = false) ∧
    (∀ C : List (Dict String), C ≠ [] → (∀ r ∈ C, conforms schemaW r) →
      decompress_to_models schemaW (compress_model_list C) ≠ none) :=
  c7_strict_validation schemaW (by decide) cdW

/-- **C8**: compressing a one-element list returns an empty `common` and
the single record's dump, verbatim, as the sole item; no field is ever
moved into `common`. -/
theorem c8_singleton_law {V : Type} [DecidableEq V] (r : Dict V) :
    compress_model_list [r] = some { common := [], items := [r] } :=
  rfl

/-! ## The filter/query engine (`jmespath_utils.py`)

The JMESPath library and the pydantic `TypeAdapter` are external
dependencies, kept abstract as a `FilterEnv`: `compile` either succeeds or
raises a `ParseError` with a message, `search` evaluates the (already
validated) expression string over a JSON value and either returns a JSON
value or raises a runtime error, and `validate` is
`type_adapter.validate_python` (receiving the value, the `strict` flag and
the string passed for the partial-validation mode).  The embedding of
`apply_jmespath_filter` returns the Python result (`Except`) together with
the ordered trace of the observable effects of the call: expression
compilation, per-record schema erasure (`model_dump`), evaluation, calls to
the caller's error sink, `logger.error`, and result re-validation. -/

/-- A schema-erased JSON-like value (Python's `None`/bool/number/str/list/
dict).  Numbers are modelled as integers; nothing in the control flow of
`apply_jmespath_filter` depends on numeric representation. -/
inductive JValue where
  | null
  | bool (b : Bool)
  | num (n : Int)
  | str (s : String)
  | arr (xs : List JValue)
  | obj (fs : List (String × JValue))

/-- Python truthiness of a JSON-like value (`if filtered_data:`). -/
def jTruthy : JValue → Bool
  | .null => false
  | .bool b => b
  | .num n => !decide (n = 0)
  | .str s => !decide (s = "")
  | .arr xs => !xs.isEmpty
  | .obj fs => !fs.isEmpty

/-- The external collaborators of `apply_jmespath_filter`. -/
structure FilterEnv where
  compile : String → Except String Unit
  search : String → JValue → Except String JValue
  validate : JValue → Bool → String → Except String (List (Dict JValue))

/-- A Python exception escaping `apply_jmespath_filter`. -/
inductive PyExc where
  | valueError (msg : String)
  | searchExc (msg : String)
  | validationExc (msg : String)
  | sinkExc (msg : String)
deriving DecidableEq

/-- One observable effect of a call to `apply_jmespath_filter`. -/
inductive FEvent where
  | compileEv (expr : String)
  | dumpEv
  | searchEv (expr : String)
  | sinkEv (msg : String)
  | logEv (msg : String)
  | validateEv
deriving DecidableEq

/-- An `except` block of `apply_jmespath_filter` (lines 68-79): call the
caller's error sink if present (an exception it raises propagates and
replaces `orig`), then `logger.error`, then raise `orig`. -/
def handleExcept (error_logger : Option (String → Except String Unit))
    (msg : String) (orig : PyExc) :
    Except PyExc (List (Dict JValue)) × List FEvent :=
  match error_logger with
  | none => (.error orig, [.logEv msg])
  | some sink =>
    match sink msg with
    | .error ex => (.error (.sinkExc ex), [.sinkEv msg])
    | .ok _ => (.error orig, [.sinkEv msg, .logEv msg])

/-- `apply_jmespath_filter` (jmespath_utils.py lines 20-79).  The last
argument embeds the unused keyword parameter of the Python signature; the
function body never consults it, and the `validate_python` call always
receives the literal `"on"` for the partial-validation mode (line 64). -/
def apply_jmespath_filter (env : FilterEnv) (data : List (Dict JValue))
    (jmespath_filter : Option String)
    (error_logger : Option (String → Except String Unit))
    (strict : Bool) ( experimental_allow_partial : Bool) :
    Except PyExc (List (Dict JValue)) × List FEvent :=
  match jmespath_filter with
  | none => (.ok data, [])
  | some f =>
    if f = "" ∨ f = "null" then (.ok data, [])
    else
      match env.compile f with
      | .error e =>
        let msg := "Invalid JMESPath filter: " ++ e
        let h := handleExcept error_logger msg (.valueError msg)
        (h.1, FEvent.compileEv f :: h.2)
      | .ok _ =>
        let pre := FEvent.compileEv f :: data.map (fun _ => FEvent.dumpEv)
        match env.search f (.arr (data.map JValue.obj)) with
        | .error e =>
          let h := handleExcept error_logger
            ("Error applying JMESPath filter: " ++ e) (.searchExc e)
          (h.1, pre ++ FEvent.searchEv f :: h.2)
        | .ok filtered_data =>
          if jTruthy filtered_data then
            match env.validate filtered_data strict "on" with
            | .ok result => (.ok result, pre ++ [.searchEv f, .validateEv])
            | .error e =>
              let h := handleExcept error_logger
                ("Error applying JMESPath filter: " ++ e) (.validationExc e)
              (h.1, pre ++ FEvent.searchEv f :: FEvent.validateEv :: h.2)
          else (.ok [], pre ++ [.searchEv f])

/-! ### Concrete environments for witnesses and counterexamples -/

/-- A jmespath stub whose compiler rejects every expression. -/
def envParseBad : FilterEnv :=
  { compile := fun _ => .error "Unexpected token",
    search := fun _ v => .ok v,
    validate := fun _ _ _ => .ok [] }

/-- A jmespath stub whose evaluator reduces every expression to the scalar
`0`, with a list-typed adapter that rejects non-list input. -/
def envScalarZero : FilterEnv :=
  { compile := fun _ => .ok (),
    search := fun _ _ => .ok (.num 0),
    validate := fun _ _ _ => .error "Input should be a valid list" }

def dataW : List (Dict JValue) :=
  [[("size", JValue.num 1)], [("size", JValue.num 2)]]

/-- An error sink that itself raises. -/
def raisingSink : String → Except String Unit := fun _ => .error "sink exploded"

/-! ## Claims about the filter/query engine -/

/-- **C4**: when the expression string reaches the parser (it is neither
empty nor the literal `"null"`, which take th identity path) and is
syntactically invalid, `apply_jmespath_filter` raises the parse error
(`ValueError`, the `QueryParseError` kind) and the schema-erasure step is
never invoked on any data element: no record is dumped, evaluated, or
re-validated (assuming the optional error sink, if present, does not itself
raise — that pathology is the subject of C6). -/
theorem c4_parse_fail_fast (env : FilterEnv) (data : List (Dict JValue))
    (f : String) (el : Option (String → Except String Unit)) (strict p : Bool)
    (e : String) (hf1 : f ≠ "") (hf2 : f ≠ "null")
    (hc : env.compile f = .error e)
    (hel : ∀ g, el = some g → g ("Invalid JMESPath filter: " ++ e) = .ok ()) :
    (apply_jmespath_filter env data (some f) el strict p).1 =
      .error (.valueError ("Invalid JMESPath filter: " ++ e)) ∧
    FEvent.dumpEv ∉ (apply_jmespath_filter env data (some f) el strict p).2 ∧
    FEvent.searchEv f ∉ (apply_jmespath_filter env data (some f) el strict p).2 ∧
    FEvent.validateEv ∉ (apply_jmespath_filter env data (some f) el strict p).2 := by
  have hite : ¬(f = "" ∨ f = "null") := by simp [hf1, hf2]
  cases el with
  | none =>
    simp [apply_jmespath_filter, hite, hc, handleExcept]
  | some g =>
    have hg := hel g rfl
    simp [apply_jmespath_filter, hite, hc, handleExcept, hg]

theorem c4_parse_fail_fast_witness :
    (apply_jmespath_filter envParseBad dataW (some "](") none false true).1 =
      .error (.valueError ("Invalid JMESPath filter: " ++ "Unexpected token")) ∧
    FEvent.dumpEv ∉ (apply_jmespath_filter envParseBad dataW (some "](") none false true).2 ∧
    FEvent.searchEv "](" ∉
      (apply_jmespath_filter envParseBad dataW (some "](") none false true).2 ∧
    FEvent.validateEv ∉
      (apply_jmespath_filter envParseBad dataW (some "](") none false true).2 :=
  c4_parse_fail_fast envParseBad dataW "](" none false true "Unexpected token"
    (by decide) (by decide) rfl (fun g h => nomatch h)

/-- **C5 — counterexample**: the claim says every expression whose
evaluation result is not an array makes `apply_jmespath_filter` raise a
`QueryEvaluationError`-kind error rather than return a value.  With an
evaluator reducing the expression to the scalar `0` — a number, hence not
an array — the call returns `.ok []` and no error at all, because Python's
`if filtered_data:` treats the falsy scalar like an empty result. -/
theorem c5_counterexample :
    envScalarZero.search "length(@)" (JValue.arr (dataW.map JValue.obj)) =
      .ok (JValue.num 0) ∧
    apply_jmespath_filter envScalarZero dataW (some "length(@)") none false true =
      (.ok [], [FEvent.compileEv "length(@)", FEvent.dumpEv, FEvent.dumpEv,
        FEvent.searchEv "length(@)"]) :=
  ⟨rfl, rfl⟩

/-- **C5 — amended**: a non-array evaluation result that is *truthy* is
handed to the list-typed adapter, whose `ValidationError` propagates (the
`QueryEvaluationError` kind, re-raised by the generic handler); but a
*falsy* result — `null`, `0`, `""`, `false`, `[]`, `\x7b\x7d` — makes the
call return the empty list with no error. -/
theorem c5_non_array_amended (env : FilterEnv) (data : List (Dict JValue))
    (f : String) (strict p : Bool) (v : JValue)
    (hf1 : f ≠ "") (hf2 : f ≠ "null") (hc : env.compile f = .ok ())
    (hs : env.search f (.arr (data.map JValue.obj)) = .ok v) :
    (jTruthy v = false →
      apply_jmespath_filter env data (some f) none strict p =
        (.ok [], (FEvent.compileEv f :: data.map (fun _ => FEvent.dumpEv)) ++
          [FEvent.searchEv f])) ∧
    (∀ e, jTruthy v = true → env.validate v strict "on" = .error e →
      (apply_jmespath_filter env data (some f) none strict p).1 =
        .error (.validationExc e)) := by
  have hite : ¬(f = "" ∨ f = "null") := by simp [hf1, hf2]
  constructor
  · intro htr
    simp [apply_jmespath_filter, hite, hc, hs, htr]
  · intro e htr hv
    simp [apply_jmespath_filter, hite, hc, hs, htr, hv, handleExcept]

theorem c5_non_array_amended_witness :
    (jTruthy (JValue.num 0) = false →
      apply_jmespath_filter envScalarZero dataW (some "length(@)") none false true =
        (.ok [], (FEvent.compileEv "length(@)" ::
          dataW.map (fun _ => FEvent.dumpEv)) ++ [FEvent.searchEv "length(@)"])) ∧
    (∀ e, jTruthy (JValue.num 0) = true →
      envScalarZero.validate (JValue.num 0) false "on" = .error e →
      (apply_jmespath_filter envScalarZero dataW (some "length(@)") none false true).1 =
        .error (.validationExc e)) :=
  c5_non_array_amended envScalarZero dataW "length(@)" false true (JValue.num 0)
    (by decide) (by decide) rfl rfl

/-- **C6 — counterexample**: the claim says that when the error sink itself
raises, the original parse error is still raised.  In the code the sink is
called inside the `except ParseError` block *before* `raise ValueError`, so
an exception from the sink propagates instead: here the call ends with the
sink's own exception and not with the `ValueError` carrying the parse
diagnostic. -/
theorem c6_counterexample :
    apply_jmespath_filter envParseBad dataW (some "](") (some raisingSink) false true =
      (.error (.sinkExc "sink exploded"),
       [FEvent.compileEv "](",
        FEvent.sinkEv "Invalid JMESPath filter: Unexpected token"]) ∧
    (apply_jmespath_filter envParseBad dataW (some "](") (some raisingSink) false true).1 ≠
      .error (.valueError "Invalid JMESPath filter: Unexpected token") := by
  constructor
  · rfl
  · show Except.error (PyExc.sinkExc "sink exploded") ≠ _
    simp

/-- **C6 — amended**: for a syntactically invalid expression (that reaches
the parser) and a caller-supplied error sink, the diagnostic is delivered
to the sink before the parse error is raised — but if the sink itself
raises, the sink's exception propagates in place of the parse error, which
is then never raised. -/
theorem c6_sink_amended (env : FilterEnv) (data : List (Dict JValue))
    (f : String) (g : String → Except String Unit) (strict p : Bool)
    (e : String) (hf1 : f ≠ "") (hf2 : f ≠ "null")
    (hc : env.compile f = .error e) :
    (g ("Invalid JMESPath filter: " ++ e) = .ok () →
      apply_jmespath_filter env data (some f) (some g) strict p =
        (.error (.valueError ("Invalid JMESPath filter: " ++ e)),
         [FEvent.compileEv f, FEvent.sinkEv ("Invalid JMESPath filter: " ++ e),
          FEvent.logEv ("Invalid JMESPath filter: " ++ e)])) ∧
    (∀ ex, g ("Invalid JMESPath filter: " ++ e) = .error ex →
      apply_jmespath_filter env data (some f) (some g) strict p =
        (.error (.sinkExc ex),
         [FEvent.compileEv f, FEvent.sinkEv ("Invalid JMESPath filter: " ++ e)])) := by
  have hite : ¬(f = "" ∨ f = "null") := by simp [hf1, hf2]
  constructor
  · intro hg
    simp [apply_jmespath_filter, hite, hc, handleExcept, hg]
  · intro ex hg
    simp [apply_jmespath_filter, hite, hc, handleExcept, hg]

theorem c6_sink_amended_witness :
    (raisingSink ("Invalid JMESPath filter: " ++ "Unexpected token") = .ok () →
      apply_jmespath_filter envParseBad dataW (some "](") (some raisingSink) false true =
        (.error (.valueError ("Invalid JMESPath filter: " ++ "Unexpected token")),
         [FEvent.compileEv "](",
          FEvent.sinkEv ("Invalid JMESPath filter: " ++ "Unexpected token"),
          FEvent.logEv ("Invalid JMESPath filter: " ++ "Unexpected token")])) ∧
    (∀ ex, raisingSink ("Invalid JMESPath filter: " ++ "Unexpected token") = .error ex →
      apply_jmespath_filter envParseBad dataW (some "](") (some raisingSink) false true =
        (.error (.sinkExc ex),
         [FEvent.compileEv "](",
          FEvent.sinkEv ("Invalid JMESPath filter: " ++ "Unexpected token")])) :=
  c6_sink_amended envParseBad dataW "](" raisingSink false true "Unexpected token"
    (by decide) (by decide) rfl

/-- **C9**: an absent (`None`), empty-string, or literal-`"null"` filter
returns the input collection unchanged, with no compilation, schema
erasure, evaluation, or re-validation performed (the effect trace is
empty). -/
theorem c9_identity (env : FilterEnv) (data : List (Dict JValue))
    (el : Option (String → Except String Unit)) (strict p : Bool) :
    apply_jmespath_filter env data none el strict p = (.ok data, []) ∧
    apply_jmespath_filter env data (some "") el strict p = (.ok data, []) ∧
    apply_jmespath_filter env data (some "null") el strict p = (.ok data, []) :=
  ⟨rfl, rfl, rfl⟩

/-- **C10**: two calls to `apply_jmespath_filter` that differ only in the
`experimental_allow_partial` argument produce identical results and effect
traces: the parameter is accepted but never consulted, and the
`validate_python` call always receives the literal `"on"` partial mode. -/
theorem c10_partial_flag_ignored (env : FilterEnv) (data : List (Dict JValue))
    (jf : Option String) (el : Option (String → Except String Unit))
    (strict p₁ p₂ : Bool) :
    apply_jmespath_filter env data jf el strict p₁ =
      apply_jmespath_filter env data jf el strict p₂ := rfl

end Spec2Proof
